import Mathlib

/-!
Verification development for the XD_TDS repository (files TDS.py and
scalefact.py).  The Python source is shallowly embedded over exact
rationals: numpy float arithmetic is idealised as arithmetic in the field
of rationals, while the discrete operations that the source performs
explicitly (rounding to a fixed number of decimals, narrowing to 8-bit
integers, token matching, bin-edge construction) are modelled exactly.
Transcendental primitives (cosine, sine, square root of the numpy
library) are abstracted as an oracle parameter, and the NaN value that
numpy produces for the square root of a negative number is modelled by
the `none` constructor of an option type.
-/

namespace XDTDS

/-! ## Generic numeric helpers -/

/-- Round half to even, the rounding rule used by numpy `round` and by
Python string formatting of floats. -/
def rndHE (q : ℚ) : ℤ :=
  if q - ⌊q⌋ = (1 : ℚ) / 2 then
    (if (⌊q⌋ : ℤ) % 2 = 0 then ⌊q⌋ else ⌊q⌋ + 1)
  else ⌊q + 1 / 2⌋

/-- Maximum of a list of rationals, mirroring `numpy.ndarray.max` (the
source only calls it on nonempty arrays; the empty case is given a
junk value). -/
def maxOf : List ℚ → ℚ
  | [] => 0
  | h :: t => t.foldl max h

/-- Minimum of a list of rationals, mirroring `numpy.ndarray.min`. -/
def minOf : List ℚ → ℚ
  | [] => 0
  | h :: t => t.foldl min h

/-- The last `n` elements of a list, mirroring the Python slice
`[-n:]` (which yields the whole list when it has fewer than `n`
elements). -/
def lastN (n : ℕ) (l : List α) : List α := l.drop (l.length - n)

/-- `numpy.linspace lo hi (n+1)`: `n + 1` evenly spaced points from
`lo` to `hi`, both endpoints included. -/
def linspace (lo hi : ℚ) (n : ℕ) : List ℚ :=
  (List.range (n + 1)).map (fun i : ℕ => lo + (hi - lo) * (i : ℚ) / n)

/-! ## TDS.py: correction polynomial and the merged reflection rows -/

/-- TDS.py line 60: the polynomial that is fitted,
`func(x, a, b) = 1 + (a*x**2 + b*x**3)`. -/
def func (x a b : ℚ) : ℚ := 1 + (a * x ^ 2 + b * x ^ 3)

/-- One row of the merged dataframe built in TDS.py `main` (fco columns
`h k l F2c F2o stl` merged with hkl columns `bn hkl_F2o hkl_F2s` on
`(h, k, l)`).  Indices and the batch number are integral values stored
in float columns before the `astype(np.int8)` narrowing, hence `ℤ`. -/
structure Refl where
  h : ℤ
  k : ℤ
  l : ℤ
  F2c : ℚ
  F2o : ℚ
  stl : ℚ
  bn : ℤ
  hkl_F2o : ℚ
  hkl_F2s : ℚ
  deriving Repr, DecidableEq

/-- Conversion of an integral value to `numpy.int8`: the value is
reduced modulo 256 into the interval `[-128, 127]` (the wrap-around
behaviour of the float-to-int8 cast performed by
`astype(np.int8)` in TDS.py lines 103, 201 and 252). -/
def toInt8 (n : ℤ) : ℤ := (n + 128) % 256 - 128

/-- TDS.py lines 103 / 201 / 252:
`df[['h','k','l','bn']] = df[['h','k','l','bn']].astype(np.int8)`. -/
def applyTypes (r : Refl) : Refl :=
  { r with h := toInt8 r.h, k := toInt8 r.k, l := toInt8 r.l, bn := toInt8 r.bn }

/-- TDS.py lines 204 / 255: the correction step
`df['hkl_F2o'] = df['hkl_F2o'] / df['stl'].apply(func, args=(a, b))`.
Only the `hkl_F2o` column is assigned. -/
def applyCorr (a b : ℚ) (r : Refl) : Refl :=
  { r with hkl_F2o := r.hkl_F2o / func r.stl a b }

/-- TDS.py lines 161 and 181: `corr_fact = np.array([0.0, 0.0])`
followed by `corr_fact += popt` once per cycle of the loop, where
`popt` is the coefficient pair returned by the fitter in that cycle.
The list argument is the sequence of per-cycle fitter results. -/
def accumulate (popts : List (ℚ × ℚ)) : ℚ × ℚ :=
  popts.foldl (fun acc p => (acc.1 + p.1, acc.2 + p.2)) (0, 0)

/-- TDS.py lines 235-255: after the loop, the original (cycle-0) data
read from `xd00.fco` / `xd00.hkl` is merged, narrowed with
`astype(np.int8)`, and corrected once with the accumulated pair
`corr_fact` (not with any per-cycle pair). -/
def finalCorrection (popts : List (ℚ × ℚ)) (orig : List Refl) : List Refl :=
  let cf := accumulate popts
  (orig.map applyTypes).map (applyCorr cf.1 cf.2)

/-- TDS.py line 204 applied to a whole cycle dataframe: each cycle
corrects the current merged rows with that cycle's fitted pair. -/
def cycleCorrection (popt : ℚ × ℚ) (rows : List Refl) : List Refl :=
  (rows.map applyTypes).map (applyCorr popt.1 popt.2)

/-! ## TDS.py: scale-factor extraction and normalization (loop body) -/

/-- Full-string match of the numeric-literal pattern used at TDS.py
line 169 to harvest scale factors from the result file:
the regular expression is digits, a dot, digits, the letter E, a sign,
one digit, and one digit from 1 to 9. -/
def matchesSfacToken (s : String) : Bool :=
  let p1 := s.toList.span Char.isDigit
  decide (p1.1 ≠ []) &&
    (match p1.2 with
     | c :: rest2 =>
       (c = '.') &&
         (let p2 := rest2.span Char.isDigit
          decide (p2.1 ≠ []) &&
            (match p2.2 with
             | e :: sgn :: d1 :: d2 :: [] =>
               (e = 'E') && ((sgn = '+') || (sgn = '-')) &&
                 d1.isDigit && d2.isDigit && (d2 ≠ '0')
             | _ => false))
     | [] => false)

/-- Numeric value of a list of decimal digit characters. -/
def digitsToNat (l : List Char) : ℕ :=
  l.foldl (fun a c => 10 * a + (c.toNat - 48)) 0

/-- Character-level decomposition of a token of the scale-factor
shape: integer digits, fractional digits, exponent sign, exponent
value. -/
def tokenParts (s : String) : Option (List Char × List Char × Char × ℕ) :=
  let p1 := s.toList.span Char.isDigit
  match p1.2 with
  | c :: rest2 =>
    if c = '.' then
      let p2 := rest2.span Char.isDigit
      match p2.2 with
      | _ :: sgn :: d1 :: d2 :: [] => some (p1.1, p2.1, sgn, digitsToNat [d1, d2])
      | _ => none
    else none
  | [] => none

/-- Value denoted by a token of the scale-factor pattern
(mantissa times ten to the signed two-digit exponent); junk value 0 on
strings not of that shape. -/
def tokenValue (s : String) : ℚ :=
  match tokenParts s with
  | some (ds1, ds2, sgn, ex) =>
    let mant : ℚ := (digitsToNat ds1 : ℚ) + (digitsToNat ds2 : ℚ) / (10 : ℚ) ^ ds2.length
    if sgn = '-' then mant / (10 : ℚ) ^ ex else mant * (10 : ℚ) ^ ex
  | none => 0

/-- TDS.py lines 173-175: square the extracted scale factors
(`sfacs = sfacs**2`) and divide every squared value by their maximum
(`sfacs /= sfacs.max()`). -/
def normalizeSfacs (vals : List ℚ) : List ℚ :=
  let sq := vals.map (fun v => v ^ 2)
  sq.map (fun v => v / maxOf sq)

/-- TDS.py lines 169-175 as one operation: keep the last `n` matched
tokens, take their values, square, normalize by the maximum. -/
def sfacsOfTokens (n : ℕ) (toks : List String) : List ℚ :=
  normalizeSfacs ((lastN n toks).map tokenValue)

/-! ## scalefact.py: reflection-file loading (`get_data`) -/

/-- A reflection file as the loader sees it: the first line and the
remaining lines. -/
structure HklFile where
  head : String
  body : List String
  deriving Repr, DecidableEq

/-- Splitting a character list on whitespace, dropping empty fields;
the accumulator holds the current field reversed. -/
def splitWsAux : List Char → List Char → List (List Char)
  | [], acc => if acc = [] then [] else [acc.reverse]
  | c :: cs, acc =>
    if c.isWhitespace then
      (if acc = [] then splitWsAux cs [] else acc.reverse :: splitWsAux cs [])
    else splitWsAux cs (c :: acc)

/-- Python `str.split()` with no argument: split on whitespace and
drop empty fields. -/
def pySplit (s : String) : List String :=
  (splitWsAux s.toList []).map String.mk

/-- Python `int(s)` on a whitespace-free token: an optional sign
followed by at least one digit; `none` models the `ValueError` raised
on any other shape. -/
def pyInt (s : String) : Option ℤ :=
  match s.toList with
  | '+' :: ds =>
    if ds ≠ [] ∧ ds.all Char.isDigit then some (digitsToNat ds) else none
  | '-' :: ds =>
    if ds ≠ [] ∧ ds.all Char.isDigit then some (-(digitsToNat ds : ℤ)) else none
  | ds =>
    if ds ≠ [] ∧ ds.all Char.isDigit then some (digitsToNat ds) else none

/-- The column count declared by the file: the last whitespace token
of the header line read as an integer (scalefact.py line 49,
`ndat = int(head.split()[-1].strip())`); `none` when the header is
blank (IndexError) or the token is not an integer (ValueError). -/
def declaredCols (f : HklFile) : Option ℤ :=
  (pySplit f.head).getLast?.bind pyInt

/-- scalefact.py `get_data`: return the header, the data lines and the
declared column count when that count is 7 or 6; any other count is
the `ValueError` at line 55, and a malformed header is the
IndexError/ValueError from line 49. -/
def get_data (f : HklFile) : Except String (String × List String × ℤ) :=
  match (pySplit f.head).getLast? with
  | none => .error "IndexError: empty header"
  | some t =>
    match pyInt t with
    | none => .error "ValueError: invalid literal for int"
    | some n =>
      if n = 7 then .ok (f.head, f.body, 7)
      else if n = 6 then .ok (f.head, f.body, 6)
      else .error "Unexpected number of data columns"

/-! ## TDS.py: writing the corrected reflection file (loop and final) -/

/-- Decimal digit character of `n % 10`. -/
def digitChar (n : ℕ) : Char := Char.ofNat (48 + n % 10)

/-- Decimal rendering of a natural number, most significant digit
first. -/
def natRender (n : ℕ) : List Char :=
  if _h : n < 10 then [digitChar n]
  else natRender (n / 10) ++ [digitChar (n % 10)]
  decreasing_by exact Nat.div_lt_self (by omega) (by omega)

/-- Decimal rendering of an integer. -/
def intRender (z : ℤ) : List Char :=
  if z < 0 then '-' :: natRender z.natAbs else natRender z.natAbs

/-- Left padding with a given character up to a given width (no-op on
strings already at least that wide). -/
def padLeft (w : ℕ) (c : Char) (s : List Char) : List Char :=
  List.replicate (w - s.length) c ++ s

/-- Python fixed-point formatting of a rational with `d` decimal
places (the `.df` format specifier): round half to even at the `d`-th
decimal and render with exactly `d` fractional digits.  The sign of a
negative zero is dropped in this model; that detail is irrelevant to
every theorem below. -/
def fixedDec (d : ℕ) (q : ℚ) : List Char :=
  let m := (rndHE (|q| * (10 : ℚ) ^ d)).toNat
  (if q < 0 then ['-'] else []) ++
    natRender (m / 10 ^ d) ++ '.' :: padLeft d '0' (natRender (m % 10 ^ d))

/-- Python `.3f` formatting as a string, used in the provenance line
(TDS.py lines 209 and 260). -/
def fmt3 (q : ℚ) : String := String.mk (fixedDec 3 q)

/-- The `{:w.0f}` formatter applied to an integral float value: the
integer rendered and right-justified to width `w`. -/
def fmtF0 (w : ℕ) (z : ℤ) : List Char := padLeft w ' ' (intRender z)

/-- The `{:12f}` formatter: fixed-point with six decimals,
right-justified to width 12. -/
def fmtF12 (q : ℚ) : List Char := padLeft 12 ' ' (fixedDec 6 q)

/-- One data line of the corrected file as produced by
`df.to_string` with the formatters of TDS.py lines 213-215, columns
`h k l bn hkl_F2o hkl_F2s`.  Columns are joined with a single space;
`to_string` may widen columns with further spaces, which affects no
theorem below (only the leading character and the column values
matter). -/
def rowChars (r : Refl) : List Char :=
  fmtF0 4 r.h ++ ' ' :: fmtF0 3 r.k ++ ' ' :: fmtF0 3 r.l ++ ' ' :: fmtF0 1 r.bn ++
    ' ' :: fmtF12 r.hkl_F2o ++ ' ' :: fmtF12 r.hkl_F2s

/-- One data line as a string. -/
def formatRow (r : Refl) : String := String.mk (rowChars r)

/-- The provenance line of TDS.py lines 209 and 260:
`!TDS CORRECTION FACTOR: a=<3-decimal>, b=<3-decimal>` (the trailing
newline of the source f-string is the line terminator in this
line-list model). -/
def provLine (a b : ℚ) : String :=
  "!TDS CORRECTION FACTOR: a=" ++ fmt3 a ++ ", b=" ++ fmt3 b

/-- TDS.py lines 207-215 (and 258-266): the corrected reflection file
as a list of lines — the preserved header, then the provenance line,
then one formatted line per reflection. -/
def writeCorrected (header : String) (a b : ℚ) (rows : List Refl) : List String :=
  header :: provLine a b :: rows.map formatRow

/-- TDS.py lines 191-195 (re-reading `xd.hkl`): the first line is the
header, and `np.loadtxt` with the comment marker set to the
exclamation mark skips every line starting with that marker.  Reading
leaves the file itself untouched. -/
def readHkl (ls : List String) : String × List String :=
  (ls.headD "", (ls.drop 1).filter (fun l => ¬ (l.data.head? = some '!')))

/-! ## TDS.py: binning with `pd.cut` (lines 106-110) -/

/-- Bin edges produced by `pd.cut(values, n, retbins=True)` when `n`
is an integer count: `n + 1` evenly spaced edges from the minimum to
the maximum of the values, with the lowest edge then lowered by 0.1%
of the range so that the minimum falls inside the (right-closed)
first interval; when minimum and maximum coincide both are first
moved out by 0.1% of their magnitude (or by 0.001 when zero). -/
def pdCutEdges (vals : List ℚ) (n : ℕ) : List ℚ :=
  let mn := minOf vals
  let mx := maxOf vals
  if mn = mx then
    let lo := mn - (if mn = 0 then 1 / 1000 else |mn| / 1000)
    let hi := mx + (if mx = 0 then 1 / 1000 else |mx| / 1000)
    linspace lo hi n
  else
    match linspace mn mx n with
    | [] => []
    | e0 :: rest => (e0 - (mx - mn) / 1000) :: rest

/-- TDS.py line 108: bin centers, the midpoints of consecutive
edges (`(bins[1:] + bins[:-1]) / 2`). -/
def pdCutCenters (edges : List ℚ) : List ℚ :=
  List.zipWith (fun a b => (a + b) / 2) edges (edges.drop 1)

/-- Scan consecutive edge pairs for the right-closed interval holding
`v`, reporting its 1-based index starting at `i`. -/
def scanBins (i : ℕ) (edges : List ℚ) (v : ℚ) : Option ℕ :=
  match edges with
  | [] => none
  | [_] => none
  | a :: b :: rest =>
    if a < v ∧ v ≤ b then some i else scanBins (i + 1) (b :: rest) v

/-- The bin (1-based) holding value `v` under the right-closed
intervals of `pd.cut`; `none` models the NaN category of a value
outside every interval.  For a single categorical grouper pandas
`groupby(...).ngroup()` returns the category code, so TDS.py line 110
(`df['bn'] = df.groupby(binned)['bn'].ngroup() + 1`) assigns exactly
this 1-based bin index as the batch number. -/
def binOf (edges : List ℚ) (v : ℚ) : Option ℕ := scanBins 1 edges v

/-- The edges of `pdCutEdges` in closed form (for min < max):
`edgeFn 0` is the adjusted lowest edge and `edgeFn i = mn + i·w` with
`w = (mx - mn) / n` for `1 ≤ i ≤ n`. -/
def edgeFn (mn mx : ℚ) (n : ℕ) (i : ℕ) : ℚ :=
  if i = 0 then mn - (mx - mn) / 1000 else mn + (mx - mn) * i / n

/-- TDS.py line 178, shape of the fit input: `curve_fit(func, bins,
sfacs, ...)` pairs the `i`-th bin center with the `i`-th normalized
scale value, for every index — bins are never filtered by
occupancy. -/
def fitInput (bins sfacs : List ℚ) : List (ℚ × ℚ) := bins.zip sfacs

/-! ## scalefact.py: geometry (`cart_from_cell`, `matrix_from_cell`)

Scalars are `Option ℚ`: `some q` is a finite float idealised as a
rational, `none` is NaN.  The numpy operations propagate NaN
strictly; `np.sqrt` of a negative argument yields NaN.  The
transcendental primitives are abstracted as the oracle `Trig`, whose
`cosd d` and `sind d` stand for `np.cos(np.radians(d))` and
`np.sin(np.radians(d))`, and whose `sqrtq` stands for the square root
of a nonnegative number. -/

/-- Oracle for the transcendental primitives of numpy. -/
structure Trig where
  cosd : ℚ → ℚ
  sind : ℚ → ℚ
  sqrtq : ℚ → ℚ

/-- NaN-aware scalar. -/
abbrev F := Option ℚ

/-- NaN-strict addition. -/
def fadd : F → F → F
  | some a, some b => some (a + b)
  | _, _ => none

/-- NaN-strict subtraction. -/
def fsub : F → F → F
  | some a, some b => some (a - b)
  | _, _ => none

/-- NaN-strict multiplication. -/
def fmul : F → F → F
  | some a, some b => some (a * b)
  | _, _ => none

/-- NaN-strict division; division by zero produces a non-finite
value, also modelled `none`. -/
def fdiv : F → F → F
  | some a, some b => if b = 0 then none else some (a / b)
  | _, _ => none

/-- `np.sqrt`: NaN on a negative argument, the oracle value
otherwise. -/
def fsqrt (t : Trig) : F → F
  | some a => if a < 0 then none else some (t.sqrtq a)
  | none => none

/-- Is this scalar a finite negative number? -/
def fneg : F → Bool
  | some a => decide (a < 0)
  | none => false

/-- A vector of three NaN-aware components. -/
structure V3 where
  x : F
  y : F
  z : F
  deriving Repr, DecidableEq

/-- `np.cross` of two 3-vectors. -/
def cross (u v : V3) : V3 :=
  ⟨fsub (fmul u.y v.z) (fmul u.z v.y),
   fsub (fmul u.z v.x) (fmul u.x v.z),
   fsub (fmul u.x v.y) (fmul u.y v.x)⟩

/-- Dot product of two 3-vectors. -/
def dot (u v : V3) : F :=
  fadd (fadd (fmul u.x v.x) (fmul u.y v.y)) (fmul u.z v.z)

/-- Componentwise division of a vector by a scalar. -/
def sdiv (u : V3) (s : F) : V3 := ⟨fdiv u.x s, fdiv u.y s, fdiv u.z s⟩

/-- Componentwise multiplication of a vector by a scalar. -/
def smulF (s : F) (u : V3) : V3 := ⟨fmul s u.x, fmul s u.y, fmul s u.z⟩

/-- Componentwise addition of vectors. -/
def vadd (u v : V3) : V3 := ⟨fadd u.x v.x, fadd u.y v.y, fadd u.z v.z⟩

/-- `np.linalg.norm` of a 3-vector. -/
def vnorm (t : Trig) (u : V3) : F := fsqrt t (dot u u)

/-- The Ångström-to-meter factor `1e-10` of scalefact.py line 87. -/
def ang : ℚ := 1 / 10 ^ 10

/-- The `y` component of the unnormalized third axis, scalefact.py
line 93: `(np.cos(alpha) - x * np.cos(gamma)) / np.sin(gamma)`. -/
def ytermAux (t : Trig) (cell : List ℚ) : F :=
  fdiv (fsub (some (t.cosd (cell.getD 3 0)))
        (fmul (some (t.cosd (cell.getD 4 0))) (some (t.cosd (cell.getD 5 0)))))
    (some (t.sind (cell.getD 5 0)))

/-- The radicand `1 - x**2 - y**2` of scalefact.py line 94, whose
square root is the third Cartesian axis component `z`. -/
def thirdAxisRad (t : Trig) (cell : List ℚ) : F :=
  fsub (fsub (some 1)
      (fmul (some (t.cosd (cell.getD 4 0))) (some (t.cosd (cell.getD 4 0)))))
    (fmul (ytermAux t cell) (ytermAux t cell))

/-- scalefact.py `cart_from_cell`: Cartesian lattice vectors from the
six cell parameters.  The only validation in the source is the shape
check of line 85; everything after it is plain numpy arithmetic. -/
def cart_from_cell (t : Trig) (cell : List ℚ) :
    Except String (V3 × V3 × V3) :=
  if cell.length ≠ 6 then
    .error "Lattice constants must be 1d array with 6 elements"
  else
    let a := cell.getD 0 0 * ang
    let b := cell.getD 1 0 * ang
    let c := cell.getD 2 0 * ang
    let ga := cell.getD 5 0
    let av : V3 := ⟨some a, some 0, some 0⟩
    let bv : V3 := ⟨some (b * t.cosd ga), some (b * t.sind ga), some 0⟩
    let xc : F := some (t.cosd (cell.getD 4 0))
    let yc : F := ytermAux t cell
    let zc : F := fsqrt t (thirdAxisRad t cell)
    let cv0 : V3 := ⟨xc, yc, zc⟩
    let cv := smulF (some c) (sdiv cv0 (vnorm t cv0))
    .ok (av, bv, cv)

/-- A 3×3 matrix given by its three columns (scalefact.py builds the
transform by assigning `A[:, 0] = a_star` and so on). -/
structure Mat3 where
  c0 : V3
  c1 : V3
  c2 : V3
  deriving Repr, DecidableEq

/-- `np.round(q, 6)`: round half to even at the sixth decimal; NaN is
mapped to NaN. -/
def round6 : F → F :=
  Option.map (fun q => ((rndHE (q * 10 ^ 6) : ℚ)) / 10 ^ 6)

/-- Rounding and rescaling of one column:
`np.round(A, 6) * 1e-10` applied componentwise
(scalefact.py line 131). -/
def roundScale (v : V3) : V3 :=
  ⟨fmul (round6 v.x) (some ang), fmul (round6 v.y) (some ang),
   fmul (round6 v.z) (some ang)⟩

/-- The reciprocal basis vector `(u × v) / ((u × v) · w)`
(scalefact.py lines 124-126). -/
def starVec (u v w : V3) : V3 := sdiv (cross u v) (dot (cross u v) w)

/-- scalefact.py `matrix_from_cell`: the reciprocal transformation
matrix, columns `a_star`, `b_star`, `c_star`, rounded to six decimals
and scaled by `1e-10`. -/
def matrix_from_cell (t : Trig) (cell : List ℚ) : Except String Mat3 :=
  match cart_from_cell t cell with
  | .error e => .error e
  | .ok (av, bv, cv) =>
    .ok ⟨roundScale (starVec bv cv av),
         roundScale (starVec cv av bv),
         roundScale (starVec av bv cv)⟩

/-- `matrix.dot(hkl)` for an integer Miller triple, row by row
(scalefact.py line 175). -/
def mulVec (M : Mat3) (h k l : ℤ) : V3 :=
  ⟨fadd (fadd (fmul M.c0.x (some (h : ℚ))) (fmul M.c1.x (some (k : ℚ))))
     (fmul M.c2.x (some (l : ℚ))),
   fadd (fadd (fmul M.c0.y (some (h : ℚ))) (fmul M.c1.y (some (k : ℚ))))
     (fmul M.c2.y (some (l : ℚ))),
   fadd (fadd (fmul M.c0.z (some (h : ℚ))) (fmul M.c1.z (some (k : ℚ))))
     (fmul M.c2.z (some (l : ℚ)))⟩

/-- scalefact.py line 178: the resolution measure used for binning,
`stl = np.linalg.norm(scatvec) / 2`. -/
def stl (t : Trig) (M : Mat3) (h k l : ℤ) : F :=
  fdiv (vnorm t (mulVec M h k l)) (some 2)

/-- The reciprocal-space vector of reflection `(h,k,l)` as the
specification words it: the integer combination
`h·a* + k·b* + l·c*` of the exact (unrounded) reciprocal basis
vectors, in the same `1e-10`-rescaled units as the metric. -/
def recipVector (t : Trig) (cell : List ℚ) (h k l : ℤ) : Except String V3 :=
  match cart_from_cell t cell with
  | .error e => .error e
  | .ok (av, bv, cv) =>
    .ok (vadd
      (smulF (some (h : ℚ)) (smulF (some ang) (starVec bv cv av)))
      (vadd (smulF (some (k : ℚ)) (smulF (some ang) (starVec cv av bv)))
            (smulF (some (l : ℚ)) (smulF (some ang) (starVec av bv cv)))))

/-- Oracle giving the true values of cosine, sine and square root at
the only inputs reached by a cell with all angles at 90 degrees:
`cos 90° = 0`, `sin 90° = 1`, `sqrt 1 = 1`. -/
def trig90 : Trig :=
  ⟨fun _ => 0, fun _ => 1, fun q => if q = 1 then 1 else 0⟩

/-- An orthorhombic unit cell, lengths 3, 1, 1 Ångström, all angles
90 degrees. -/
def cell90 : List ℚ := [3, 1, 1, 90, 90, 90]

/-- The metric of `cell90`: the rounding of `1e10/3` at the sixth
decimal is visible in the first column. -/
def M90 : Mat3 :=
  ⟨⟨some (3333333333333333 / 10 ^ 16), some 0, some 0⟩,
   ⟨some 0, some 1, some 0⟩,
   ⟨some 0, some 0, some 1⟩⟩

/-- Oracle carrying rational approximations (accurate to four
decimals) of cosine and sine at 60 and 170 degrees; the sign of the
radicand computed from them is robust to the approximation error. -/
def trig170 : Trig :=
  ⟨fun d => if d = 60 then 1 / 2 else if d = 170 then -(9848 / 10000) else 0,
   fun d => if d = 170 then 1736 / 10000 else 1,
   fun _ => 0⟩

/-- A degenerate unit cell: angles 60, 60, 170 degrees make the
third-axis radicand negative. -/
def cell170 : List ℚ := [1, 1, 1, 60, 60, 170]

/-! ## Helper lemmas -/

theorem accumulate_aux (popts : List (ℚ × ℚ)) (init : ℚ × ℚ) :
    popts.foldl (fun acc p => (acc.1 + p.1, acc.2 + p.2)) init
      = (init.1 + (popts.map Prod.fst).sum, init.2 + (popts.map Prod.snd).sum) := by
  induction popts generalizing init with
  | nil => simp
  | cons p t ih =>
    simp only [List.foldl_cons, ih, List.map_cons, List.sum_cons]
    exact Prod.ext (by ring) (by ring)

theorem toInt8_mod (n : ℤ) : toInt8 n % 256 = n % 256 := by
  unfold toInt8; omega

theorem toInt8_range (n : ℤ) : -128 ≤ toInt8 n ∧ toInt8 n ≤ 127 := by
  unfold toInt8; omega

theorem toInt8_id (n : ℤ) (h1 : -128 ≤ n) (h2 : n ≤ 127) : toInt8 n = n := by
  unfold toInt8; omega

theorem foldl_max_le_self (t : List ℚ) (init : ℚ) : init ≤ t.foldl max init := by
  induction t generalizing init with
  | nil => exact le_refl _
  | cons a t ih => exact le_trans (le_max_left init a) (ih (max init a))

theorem mem_le_foldl_max (t : List ℚ) (init : ℚ) : ∀ x ∈ t, x ≤ t.foldl max init := by
  induction t generalizing init with
  | nil => intro x hx; cases hx
  | cons a t ih =>
    intro x hx
    simp only [List.foldl_cons]
    rcases List.mem_cons.mp hx with h | h
    · subst h; exact le_trans (le_max_right init x) (foldl_max_le_self t (max init x))
    · exact ih (max init a) x h

theorem le_maxOf (l : List ℚ) (x : ℚ) (hx : x ∈ l) : x ≤ maxOf l := by
  cases l with
  | nil => cases hx
  | cons h t =>
    rcases List.mem_cons.mp hx with h1 | h1
    · exact h1 ▸ foldl_max_le_self t h
    · exact mem_le_foldl_max t h x h1

theorem foldl_max_div (t : List ℚ) (init M : ℚ) (hM : 0 < M) :
    (t.map (fun v => v / M)).foldl max (init / M) = t.foldl max init / M := by
  induction t generalizing init with
  | nil => rfl
  | cons a t ih =>
    simp only [List.map_cons, List.foldl_cons]
    rw [show max (init / M) (a / M) = max init a / M from
        max_div_div_right (le_of_lt hM) init a, ih]

theorem maxOf_map_div (l : List ℚ) (M : ℚ) (hM : 0 < M) :
    maxOf (l.map (fun v => v / M)) = maxOf l / M := by
  cases l with
  | nil => simp [maxOf]
  | cons h t => exact foldl_max_div t h M hM

/-! ## Claim theorems -/

/-- Claim C1: after the loop over the configured cycles, the
accumulated correction pair equals the cycle-by-cycle sum of the
coefficient pairs returned by the fitter, starting from `(0, 0)`, and
that accumulated pair — not any per-cycle pair — is what the final
corrected reflection file is produced with (applied to the original
cycle-0 data). -/
theorem C1_accumulated_correction (popts : List (ℚ × ℚ)) (orig : List Refl) :
    accumulate popts = ((popts.map Prod.fst).sum, (popts.map Prod.snd).sum) ∧
    finalCorrection popts orig
      = (orig.map applyTypes).map
          (applyCorr (popts.map Prod.fst).sum (popts.map Prod.snd).sum) := by
  have h : accumulate popts = ((popts.map Prod.fst).sum, (popts.map Prod.snd).sum) := by
    unfold accumulate
    rw [accumulate_aux]
    exact Prod.ext (zero_add _) (zero_add _)
  exact ⟨h, by unfold finalCorrection; rw [h]⟩

/-- Claim C2: the correction step divides each reflection's observed
amplitude by `1 + a·x² + b·x³` at that reflection's resolution `x`
and changes no other per-reflection quantity; the per-cycle
application uses that cycle's fitted pair and the final application
uses the accumulated pair on the original data. -/
theorem C2_correction_division (a b : ℚ) (r : Refl)
    (popts : List (ℚ × ℚ)) (rows orig : List Refl) :
    ((applyCorr a b r).hkl_F2o = r.hkl_F2o / (1 + (a * r.stl ^ 2 + b * r.stl ^ 3)) ∧
     (applyCorr a b r).h = r.h ∧ (applyCorr a b r).k = r.k ∧
     (applyCorr a b r).l = r.l ∧ (applyCorr a b r).bn = r.bn ∧
     (applyCorr a b r).F2c = r.F2c ∧ (applyCorr a b r).F2o = r.F2o ∧
     (applyCorr a b r).stl = r.stl ∧ (applyCorr a b r).hkl_F2s = r.hkl_F2s) ∧
    cycleCorrection (a, b) rows = (rows.map applyTypes).map (applyCorr a b) ∧
    finalCorrection popts orig
      = (orig.map applyTypes).map
          (applyCorr (accumulate popts).1 (accumulate popts).2) := by
  refine ⟨⟨?_, rfl, rfl, rfl, rfl, rfl, rfl, rfl, rfl⟩, rfl, rfl⟩
  simp [applyCorr, func]

/-- Claim C10: before each corrected file is written, the merged
data's indices and batch tag are narrowed to 8-bit signed integers:
any value is silently reduced modulo 256 into `[-128, 127]`, and
values already in that interval are written unchanged; the narrowing
touches no other column. -/
theorem C10_int8_narrowing (r : Refl) :
    ((applyTypes r).h = toInt8 r.h ∧ (applyTypes r).k = toInt8 r.k ∧
     (applyTypes r).l = toInt8 r.l ∧ (applyTypes r).bn = toInt8 r.bn) ∧
    (∀ n : ℤ, toInt8 n % 256 = n % 256 ∧ -128 ≤ toInt8 n ∧ toInt8 n ≤ 127) ∧
    (∀ n : ℤ, -128 ≤ n → n ≤ 127 → toInt8 n = n) ∧
    ((applyTypes r).F2c = r.F2c ∧ (applyTypes r).F2o = r.F2o ∧
     (applyTypes r).stl = r.stl ∧ (applyTypes r).hkl_F2o = r.hkl_F2o ∧
     (applyTypes r).hkl_F2s = r.hkl_F2s) := by
  refine ⟨⟨rfl, rfl, rfl, rfl⟩, ?_, ?_, rfl, rfl, rfl, rfl, rfl⟩
  · exact fun n => ⟨toInt8_mod n, toInt8_range n⟩
  · exact fun n h1 h2 => toInt8_id n h1 h2

/-- Witness for C10 at concrete inputs: 200 wraps to -56 and 127 is
preserved. -/
theorem C10_int8_narrowing_witness :
    toInt8 200 % 256 = 200 % 256 ∧ toInt8 127 = 127 :=
  ⟨((C10_int8_narrowing ⟨1, 2, 3, 0, 0, 0, 4, 1, 2⟩).2.1 200).1,
   (C10_int8_narrowing ⟨1, 2, 3, 0, 0, 0, 4, 1, 2⟩).2.2.1 127 (by decide) (by decide)⟩

/-- Claim C3 as stated is false: the token `0.0E+11` matches the
numeric-literal pattern of the result file and has value zero, so the
normalized sequence `[0, 1]` produced from the extraction
`[0.0E+11, 2.0E+11]` (which is nonempty with positive maximum)
contains an entry outside `(0, 1]`. -/
theorem C3_counterexample :
    matchesSfacToken "0.0E+11" = true ∧ matchesSfacToken "2.0E+11" = true ∧
    (0 : ℚ) < maxOf (((lastN 12 ["0.0E+11", "2.0E+11"]).map tokenValue).map
      (fun v => v ^ 2)) ∧
    sfacsOfTokens 12 ["0.0E+11", "2.0E+11"] = [0, 1] ∧
    ¬ (∀ e ∈ sfacsOfTokens 12 ["0.0E+11", "2.0E+11"], 0 < e) := by
  have ht : lastN 12 ["0.0E+11", "2.0E+11"] = ["0.0E+11", "2.0E+11"] := by decide
  have hp0 : tokenParts "0.0E+11" = some (['0'], ['0'], '+', 11) := by decide
  have hp2 : tokenParts "2.0E+11" = some (['2'], ['0'], '+', 11) := by decide
  have hd0 : digitsToNat ['0'] = 0 := by decide
  have hd2 : digitsToNat ['2'] = 2 := by decide
  have hv0 : tokenValue "0.0E+11" = 0 := by
    simp only [tokenValue, hp0, hd0]
    rw [if_neg (by decide : ¬ ('+' : Char) = '-')]; norm_num
  have hv2 : tokenValue "2.0E+11" = 2 * 10 ^ 11 := by
    simp only [tokenValue, hp2, hd0, hd2]
    rw [if_neg (by decide : ¬ ('+' : Char) = '-')]; norm_num
  have hmap : (lastN 12 ["0.0E+11", "2.0E+11"]).map tokenValue = [0, 2 * 10 ^ 11] := by
    rw [ht]; simp only [List.map_cons, List.map_nil, hv0, hv2]
  have hsq : ([0, 2 * 10 ^ 11] : List ℚ).map (fun v => v ^ 2) = [0, 4 * 10 ^ 22] := by
    norm_num
  have hmax : maxOf [(0 : ℚ), 4 * 10 ^ 22] = 4 * 10 ^ 22 := by
    norm_num [maxOf, max_def]
  have hs : sfacsOfTokens 12 ["0.0E+11", "2.0E+11"] = [0, 1] := by
    simp only [sfacsOfTokens, normalizeSfacs, hmap, hsq, hmax]
    norm_num
  refine ⟨by decide, by decide, ?_, hs, ?_⟩
  · rw [hmap, hsq, hmax]; norm_num
  · intro hall
    have h0 := hall 0 (by rw [hs]; exact List.mem_cons_self 0 [1])
    exact lt_irrefl 0 h0

/-- Claim C3 amended: the scale values supplied to the fitter are the
squares of the last N extracted token values divided by the maximum
of the squares; for a nonempty extraction with positive maximum the
normalized sequence has maximum exactly 1 and every entry lies in
`[0, 1]` (an entry is 0 exactly when the matched token has value 0). -/
theorem C3_amended_normalization (toks : List String) (n : ℕ)
    (_hne : (lastN n toks).map tokenValue ≠ [])
    (hpos : 0 < maxOf (((lastN n toks).map tokenValue).map (fun v => v ^ 2))) :
    maxOf (sfacsOfTokens n toks) = 1 ∧
    ∀ e ∈ sfacsOfTokens n toks, 0 ≤ e ∧ e ≤ 1 := by
  set vals := (lastN n toks).map tokenValue with hv
  set sq := vals.map (fun v => v ^ 2) with hsq
  have hout : sfacsOfTokens n toks = sq.map (fun v => v / maxOf sq) := rfl
  constructor
  · rw [hout, maxOf_map_div sq (maxOf sq) hpos, div_self (ne_of_gt hpos)]
  · intro e he
    rw [hout] at he
    obtain ⟨v, hvmem, hveq⟩ := List.mem_map.mp he
    obtain ⟨w, _, hweq⟩ := List.mem_map.mp hvmem
    constructor
    · rw [← hveq]
      exact div_nonneg (hweq ▸ sq_nonneg w) (le_of_lt hpos)
    · rw [← hveq]
      exact (div_le_one hpos).mpr (le_maxOf sq v hvmem)

/-- Witness for the amended C3 at a concrete extraction. -/
theorem C3_amended_normalization_witness :
    (lastN 12 ["1.5E+01"]).map tokenValue ≠ [] ∧
    (0 : ℚ) < maxOf (((lastN 12 ["1.5E+01"]).map tokenValue).map (fun v => v ^ 2)) ∧
    (maxOf (sfacsOfTokens 12 ["1.5E+01"]) = 1 ∧
     ∀ e ∈ sfacsOfTokens 12 ["1.5E+01"], 0 ≤ e ∧ e ≤ 1) := by
  have ht : lastN 12 ["1.5E+01"] = ["1.5E+01"] := by decide
  have hp : tokenParts "1.5E+01" = some (['1'], ['5'], '+', 1) := by decide
  have hd1 : digitsToNat ['1'] = 1 := by decide
  have hd5 : digitsToNat ['5'] = 5 := by decide
  have hv : tokenValue "1.5E+01" = 15 := by
    simp only [tokenValue, hp, hd1, hd5]
    rw [if_neg (by decide : ¬ ('+' : Char) = '-')]; norm_num
  have hmap : (lastN 12 ["1.5E+01"]).map tokenValue = [15] := by
    rw [ht]; simp only [List.map_cons, List.map_nil, hv]
  have hne : (lastN 12 ["1.5E+01"]).map tokenValue ≠ [] := by
    rw [hmap]; exact List.cons_ne_nil 15 []
  have hpos : (0 : ℚ) < maxOf (((lastN 12 ["1.5E+01"]).map tokenValue).map
      (fun v => v ^ 2)) := by
    rw [hmap]; norm_num [maxOf]
  exact ⟨hne, hpos, C3_amended_normalization ["1.5E+01"] 12 hne hpos⟩

/-- Claim C8: loading a reflection file succeeds exactly when the
column count the file declares (the last numeric token of its header
line) is one of the two supported layouts, 6 or 7; for any other
declared count loading raises the format error and returns no data
(a header whose last token is not an integer, or a blank header, is
the corresponding parse error and also returns no data). -/
theorem C8_column_count (f : HklFile) :
    ((∃ r, get_data f = .ok r) ↔ (∃ n, declaredCols f = some n ∧ (n = 6 ∨ n = 7))) ∧
    (∀ n : ℤ, declaredCols f = some n → n ≠ 6 → n ≠ 7 →
      get_data f = .error "Unexpected number of data columns") := by
  unfold get_data declaredCols
  cases hL : (pySplit f.head).getLast? with
  | none => simp
  | some t =>
    cases hI : pyInt t with
    | none => simp [hI]
    | some n =>
      by_cases h7 : n = 7
      · subst h7; simp [hI]
      · by_cases h6 : n = 6
        · subst h6; simp [hI]
        · simp [hI, h6, h7]

/-- Witness for C8: a header declaring 6 columns loads, a header
declaring 8 columns is the format error. -/
theorem C8_column_count_witness :
    (∃ r, get_data ⟨"XDLSM F^2 NDAT 6", ["row"]⟩ = .ok r) ∧
    get_data ⟨"XDLSM F^2 NDAT 8", []⟩ = .error "Unexpected number of data columns" :=
  ⟨(C8_column_count ⟨"XDLSM F^2 NDAT 6", ["row"]⟩).1.mpr ⟨6, by decide, Or.inl rfl⟩,
   (C8_column_count ⟨"XDLSM F^2 NDAT 8", []⟩).2 8 (by decide) (by decide) (by decide)⟩

theorem digitChar_isDigit (n : ℕ) : (digitChar n).isDigit = true := by
  unfold digitChar
  have h : n % 10 < 10 := Nat.mod_lt n (by omega)
  set m := n % 10 with hm
  interval_cases m <;> decide

theorem natRender_ne_nil (n : ℕ) : natRender n ≠ [] := by
  rw [natRender]
  split
  · exact List.cons_ne_nil _ _
  · intro h
    simp at h

theorem natRender_digits (n : ℕ) : ∀ c ∈ natRender n, c.isDigit = true := by
  induction n using Nat.strong_induction_on with
  | _ n ih =>
    rw [natRender]
    split
    · intro c hc
      rw [List.mem_singleton] at hc
      subst hc
      exact digitChar_isDigit n
    · intro c hc
      rcases List.mem_append.mp hc with h1 | h1
      · exact ih (n / 10) (Nat.div_lt_self (by omega) (by omega)) c h1
      · rw [List.mem_singleton] at h1
        subst h1
        exact digitChar_isDigit (n % 10)

theorem intRender_ne_nil (z : ℤ) : intRender z ≠ [] := by
  unfold intRender
  split
  · exact List.cons_ne_nil _ _
  · exact natRender_ne_nil _

theorem intRender_head_not_bang (z : ℤ) : (intRender z).head? ≠ some '!' := by
  unfold intRender
  split
  · simp
  · cases h : natRender z.natAbs with
    | nil => exact absurd h (natRender_ne_nil _)
    | cons c t =>
      simp only [List.head?_cons, ne_eq, Option.some.injEq]
      intro hc
      have hd := natRender_digits z.natAbs c (h ▸ List.mem_cons_self c t)
      rw [hc] at hd
      exact absurd hd (by decide)

theorem padLeft_ne_nil (w : ℕ) (c : Char) (s : List Char) (hs : s ≠ []) :
    padLeft w c s ≠ [] := by
  unfold padLeft
  intro h
  rcases List.append_eq_nil.mp h with ⟨_, h2⟩
  exact hs h2

theorem padLeft_head_not_bang (w : ℕ) (s : List Char) (hh : s.head? ≠ some '!') :
    (padLeft w ' ' s).head? ≠ some '!' := by
  unfold padLeft
  cases h : w - s.length with
  | zero => simpa [h] using hh
  | succ m => simp [h, List.replicate_succ]

theorem rowChars_head_not_bang (r : Refl) : (rowChars r).head? ≠ some '!' := by
  have h1 : (padLeft 4 ' ' (intRender r.h)).head? ≠ some '!' :=
    padLeft_head_not_bang 4 (intRender r.h) (intRender_head_not_bang r.h)
  have h2 : padLeft 4 ' ' (intRender r.h) ≠ [] :=
    padLeft_ne_nil 4 ' ' (intRender r.h) (intRender_ne_nil r.h)
  unfold rowChars fmtF0
  cases hp : padLeft 4 ' ' (intRender r.h) with
  | nil => exact absurd hp h2
  | cons c t =>
    rw [hp] at h1
    simpa using h1

theorem formatRow_head_not_bang (r : Refl) : (formatRow r).data.head? ≠ some '!' :=
  rowChars_head_not_bang r

theorem provLine_head_bang (a b : ℚ) : (provLine a b).data.head? = some '!' := by
  unfold provLine
  rw [String.data_append, String.data_append, String.data_append]
  rw [List.head?_append, List.head?_append, List.head?_append]
  rw [show ("!TDS CORRECTION FACTOR: a=").data.head? = some '!' from by decide]
  rfl

/-- Claim C9: whenever a correction has been applied, the written
reflection file has, immediately after the header line, the
provenance line `!TDS CORRECTION FACTOR: a=<3-decimal>, b=<3-decimal>`,
which begins with the engine's comment marker; a later re-read of the
file recovers the header and the data rows unchanged, skipping the
provenance line as a comment (and leaving the file, including that
line, intact). -/
theorem C9_provenance (header : String) (a b : ℚ) (rows : List Refl) :
    (writeCorrected header a b rows).get? 1 = some (provLine a b) ∧
    (provLine a b).data.head? = some '!' ∧
    provLine a b = "!TDS CORRECTION FACTOR: a=" ++ fmt3 a ++ ", b=" ++ fmt3 b ∧
    readHkl (writeCorrected header a b rows) = (header, rows.map formatRow) := by
  refine ⟨rfl, provLine_head_bang a b, rfl, ?_⟩
  have hfilter : List.filter (fun l => decide (¬ l.data.head? = some '!'))
      (List.map formatRow rows) = List.map formatRow rows := by
    rw [List.filter_eq_self]
    intro s hs
    obtain ⟨r, _, hr⟩ := List.mem_map.mp hs
    subst hr
    simpa using formatRow_head_not_bang r
  unfold readHkl writeCorrected
  simp only [List.headD_cons, List.drop_succ_cons, List.drop_zero, List.filter_cons]
  simp [provLine_head_bang a b, hfilter]
  exact fun r _ => formatRow_head_not_bang r

/-- Witness for C9 at concrete arguments. -/
theorem C9_provenance_witness :
    (writeCorrected "HEADER" 0 0 []).get? 1 = some (provLine 0 0) ∧
    readHkl (writeCorrected "HEADER" 0 0 []) = ("HEADER", []) := by
  refine ⟨(C9_provenance "HEADER" 0 0 []).1, ?_⟩
  have h := (C9_provenance "HEADER" 0 0 []).2.2.2
  simpa using h

theorem exists_bracket (g : ℕ → ℚ) (n : ℕ) (hn : 1 ≤ n) (v : ℚ)
    (h0 : g 0 < v) (hN : v ≤ g n) : ∃ k, k < n ∧ g k < v ∧ v ≤ g (k + 1) := by
  induction n with
  | zero => omega
  | succ m ih =>
    by_cases hm : m = 0
    · subst hm
      exact ⟨0, by omega, h0, hN⟩
    · by_cases hv : v ≤ g m
      · obtain ⟨k, hk1, hk2, hk3⟩ := ih (by omega) hv
        exact ⟨k, by omega, hk2, hk3⟩
      · exact ⟨m, by omega, lt_of_not_le hv, hN⟩

theorem scanBins_some (es : List ℚ) (v : ℚ) :
    ∀ (i j : ℕ), scanBins i es v = some j →
      i ≤ j ∧ j - i + 1 < es.length ∧
      es.getD (j - i) 0 < v ∧ v ≤ es.getD (j - i + 1) 0 := by
  induction es with
  | nil => intro i j h; exact absurd h (by simp [scanBins])
  | cons a t ih =>
    cases t with
    | nil => intro i j h; exact absurd h (by simp [scanBins])
    | cons b rest =>
      intro i j h
      rw [scanBins] at h
      split at h
      · rename_i hab
        have hij : i = j := by
          have := Option.some.inj h
          omega
        subst hij
        refine ⟨le_refl i, by simp, ?_, ?_⟩
        · simpa using hab.1
        · simpa using hab.2
      · obtain ⟨h1, h2, h3, h4⟩ := ih (i + 1) j h
        have hji : j - i = (j - (i + 1)) + 1 := by omega
        refine ⟨by omega, ?_, ?_, ?_⟩
        · simp only [List.length_cons] at h2 ⊢
          omega
        · rw [hji, List.getD_cons_succ]
          exact h3
        · rw [hji, List.getD_cons_succ]
          exact h4

theorem chain_head_le_getD (v : ℚ) (t : List ℚ)
    (hch : List.Chain' (· < ·) (v :: t)) :
    ∀ k, k < (v :: t).length → v ≤ (v :: t).getD k 0 := by
  induction t generalizing v with
  | nil =>
    intro k hk
    have hk0 : k = 0 := by simpa using hk
    subst hk0
    exact le_refl v
  | cons b t2 ih =>
    intro k hk
    cases k with
    | zero => exact le_refl v
    | succ m =>
      rw [List.getD_cons_succ]
      have hvb : v < b := (List.chain'_cons.mp hch).1
      have hch2 : List.Chain' (· < ·) (b :: t2) := (List.chain'_cons.mp hch).2
      exact le_trans (le_of_lt hvb) (ih b hch2 m (by simpa using Nat.lt_of_succ_lt_succ hk))

theorem scanBins_of_bracket (v : ℚ) :
    ∀ (k : ℕ) (es : List ℚ), List.Chain' (· < ·) es → k + 1 < es.length →
      es.getD k 0 < v → v ≤ es.getD (k + 1) 0 →
      ∀ i, scanBins i es v = some (i + k) := by
  intro k
  induction k with
  | zero =>
    intro es hch hk h1 h2 i
    match es, hk with
    | a :: b :: rest, _ =>
      have hcond : a < v ∧ v ≤ b := ⟨by simpa using h1, by simpa using h2⟩
      rw [scanBins, if_pos hcond]
      simp
  | succ m ih =>
    intro es hch hk h1 h2 i
    match es, hk with
    | a :: b :: rest, hk =>
      have hch2 : List.Chain' (· < ·) (b :: rest) := (List.chain'_cons.mp hch).2
      have hble : b ≤ (b :: rest).getD m 0 :=
        chain_head_le_getD b rest hch2 m (by simp only [List.length_cons] at hk ⊢; omega)
      have hbv : b < v := lt_of_le_of_lt hble (by simpa using h1)
      rw [scanBins, if_neg]
      · have := ih (b :: rest) hch2 (by simp only [List.length_cons] at hk ⊢; omega)
          (by simpa using h1) (by simpa using h2) (i + 1)
        rw [this]
        congr 1
        omega
      · intro hcon
        exact absurd hcon.2 (not_le_of_lt hbv)

theorem getD_map_range (f : ℕ → ℚ) (m i : ℕ) (hi : i < m) :
    ((List.range m).map f).getD i 0 = f i := by
  rw [List.getD_eq_getElem?_getD, List.getElem?_map, List.getElem?_range hi]
  rfl

theorem map_range_succ_cons (g : ℕ → ℚ) (n : ℕ) :
    (List.range (n + 1)).map g = g 0 :: (List.range n).map (fun i => g (i + 1)) := by
  rw [List.range_succ_eq_map, List.map_cons, List.map_map]
  rfl

theorem centers_map_range (n : ℕ) : ∀ g : ℕ → ℚ,
    pdCutCenters ((List.range (n + 1)).map g)
      = (List.range n).map (fun i => (g i + g (i + 1)) / 2) := by
  induction n with
  | zero => intro g; rfl
  | succ m ih =>
    intro g
    have hthis := ih (fun i => g (i + 1))
    rw [map_range_succ_cons (fun i => g (i + 1)) m] at hthis
    unfold pdCutCenters at hthis
    simp only [List.drop_succ_cons, List.drop_zero] at hthis
    unfold pdCutCenters
    rw [map_range_succ_cons g (m + 1), map_range_succ_cons (fun i => g (i + 1)) m,
        map_range_succ_cons (fun i => (g i + g (i + 1)) / 2) m]
    simp only [List.drop_succ_cons, List.drop_zero]
    rw [List.zipWith_cons_cons, hthis]

theorem pdCutEdges_eq (vals : List ℚ) (n : ℕ) (hlt : minOf vals < maxOf vals) :
    pdCutEdges vals n = (List.range (n + 1)).map (edgeFn (minOf vals) (maxOf vals) n) := by
  have hne : ¬ (minOf vals = maxOf vals) := ne_of_lt hlt
  have hlin : linspace (minOf vals) (maxOf vals) n
      = (minOf vals + (maxOf vals - minOf vals) * ((0 : ℕ) : ℚ) / n)
        :: (List.range n).map
          (fun i => minOf vals + (maxOf vals - minOf vals) * ((i + 1 : ℕ) : ℚ) / n) := by
    unfold linspace
    rw [map_range_succ_cons]
  simp only [pdCutEdges, hne, if_false, hlin]
  rw [map_range_succ_cons (edgeFn (minOf vals) (maxOf vals) n) n]
  congr 1
  simp [edgeFn]

theorem edgeFn_strictMono (mn mx : ℚ) (n : ℕ) (hn : 1 ≤ n) (hlt : mn < mx) :
    ∀ i j, i < j → j ≤ n → edgeFn mn mx n i < edgeFn mn mx n j := by
  intro i j hij hj
  have hr : 0 < mx - mn := sub_pos.mpr hlt
  have hnq : 0 < (n : ℚ) := by exact_mod_cast Nat.pos_of_ne_zero (by omega)
  unfold edgeFn
  by_cases hi : i = 0
  · subst hi
    rw [if_pos rfl, if_neg (by omega)]
    have hjq : 0 < (j : ℚ) := by exact_mod_cast (by omega : 0 < j)
    have h1 : (0 : ℚ) < (mx - mn) * j / n := div_pos (mul_pos hr hjq) hnq
    have h2 : (0 : ℚ) < (mx - mn) / 1000 := by positivity
    linarith
  · rw [if_neg hi, if_neg (by omega)]
    have hcast : (i : ℚ) < j := by exact_mod_cast hij
    have h3 : (mx - mn) * i / n < (mx - mn) * j / n := by
      apply div_lt_div_of_pos_right ?_ hnq
      exact mul_lt_mul_of_pos_left hcast hr
    linarith

theorem edgeFn_last (mn mx : ℚ) (n : ℕ) (hn : 1 ≤ n) : edgeFn mn mx n n = mx := by
  unfold edgeFn
  rw [if_neg (by omega)]
  have hnq : (n : ℚ) ≠ 0 := Nat.cast_ne_zero.mpr (by omega)
  rw [mul_div_assoc, div_self hnq, mul_one]
  ring

theorem edges_chain (vals : List ℚ) (n : ℕ) (hn : 1 ≤ n)
    (hlt : minOf vals < maxOf vals) :
    List.Chain' (· < ·) (pdCutEdges vals n) := by
  rw [pdCutEdges_eq vals n hlt, List.chain'_map]
  rw [List.chain'_range_succ]
  intro m hm
  exact edgeFn_strictMono (minOf vals) (maxOf vals) n hn hlt m (m + 1) (by omega) (by omega)

theorem edges_length (vals : List ℚ) (n : ℕ) (hlt : minOf vals < maxOf vals) :
    (pdCutEdges vals n).length = n + 1 := by
  rw [pdCutEdges_eq vals n hlt]
  simp

theorem edges_getD (vals : List ℚ) (n : ℕ) (hlt : minOf vals < maxOf vals)
    (i : ℕ) (hi : i < n + 1) :
    (pdCutEdges vals n).getD i 0 = edgeFn (minOf vals) (maxOf vals) n i := by
  rw [pdCutEdges_eq vals n hlt]
  exact getD_map_range _ _ _ hi

theorem zip_getD (l1 : List ℚ) : ∀ (l2 : List ℚ) (i : ℕ), i < l1.length → i < l2.length →
    (l1.zip l2).getD i (0, 0) = (l1.getD i 0, l2.getD i 0) := by
  induction l1 with
  | nil => intro l2 i h1; simp at h1
  | cons a t ih =>
    intro l2 i h1 h2
    cases l2 with
    | nil => simp at h2
    | cons b t2 =>
      cases i with
      | zero => rfl
      | succ m =>
        simp only [List.zip_cons_cons, List.getD_cons_succ]
        exact ih t2 m (by simpa using h1) (by simpa using h2)

/-- Claim C4 as stated is false: for the resolution values `[0, 1]`
and 2 bins, `pd.cut` lowers the first edge by 0.1% of the range, so
the produced partition is `[-1/1000, 1/2, 1]` — it does not span
exactly `[min, max]` and its bins do not all have equal width. -/
theorem C4_counterexample :
    pdCutEdges [0, 1] 2 = [-(1 / 1000), 1 / 2, 1] ∧
    (pdCutEdges [0, 1] 2).headD 0 ≠ minOf [0, 1] ∧
    ((1 : ℚ) / 2 - (-(1 / 1000))) ≠ 1 - 1 / 2 := by
  have hmn : minOf [(0 : ℚ), 1] = 0 := by norm_num [minOf, min_def]
  have hmx : maxOf [(0 : ℚ), 1] = 1 := by norm_num [maxOf, max_def]
  have hlt : minOf [(0 : ℚ), 1] < maxOf [(0 : ℚ), 1] := by rw [hmn, hmx]; norm_num
  have he : pdCutEdges [0, 1] 2 = [-(1 / 1000), 1 / 2, 1] := by
    rw [pdCutEdges_eq [0, 1] 2 hlt, hmn, hmx]
    rw [show List.range 3 = [0, 1, 2] from by decide]
    simp [edgeFn]
  refine ⟨he, ?_, by norm_num⟩
  rw [he, hmn]
  norm_num

/-- Claim C4 amended: for `min < max` and `n ≥ 1` bins, the edges are
`min - (max-min)/1000` followed by `min + i·(max-min)/n` for
`i = 1..n` (so bin 1 is wider by the 0.1% adjustment and the lowest
edge lies below the minimum); every value in `[min, max]` falls in
exactly one right-closed bin, with interior boundary values in the
lower-indexed bin and the maximum in bin `n`; the bin centers are the
midpoints of consecutive edges, in strictly ascending order. -/
theorem C4_amended_binning (vals : List ℚ) (n : ℕ) (hn : 1 ≤ n)
    (hlt : minOf vals < maxOf vals) :
    pdCutEdges vals n = (List.range (n + 1)).map (edgeFn (minOf vals) (maxOf vals) n) ∧
    (∀ v : ℚ, minOf vals ≤ v → v ≤ maxOf vals →
      ∃ i, binOf (pdCutEdges vals n) v = some i ∧ 1 ≤ i ∧ i ≤ n) ∧
    (∀ (v : ℚ) (i : ℕ), 1 ≤ i → i ≤ n →
      (binOf (pdCutEdges vals n) v = some i ↔
        edgeFn (minOf vals) (maxOf vals) n (i - 1) < v ∧
          v ≤ edgeFn (minOf vals) (maxOf vals) n i)) ∧
    binOf (pdCutEdges vals n) (maxOf vals) = some n ∧
    (∀ i : ℕ, 1 ≤ i → i < n →
      binOf (pdCutEdges vals n) (edgeFn (minOf vals) (maxOf vals) n i) = some i) ∧
    List.Chain' (· < ·) (pdCutCenters (pdCutEdges vals n)) := by
  have hch := edges_chain vals n hn hlt
  have hlen := edges_length vals n hlt
  have hiff : ∀ (v : ℚ) (i : ℕ), 1 ≤ i → i ≤ n →
      (binOf (pdCutEdges vals n) v = some i ↔
        edgeFn (minOf vals) (maxOf vals) n (i - 1) < v ∧
          v ≤ edgeFn (minOf vals) (maxOf vals) n i) := by
    intro v i h1 h2
    constructor
    · intro h
      obtain ⟨hij, hlt2, hg1, hg2⟩ := scanBins_some (pdCutEdges vals n) v 1 i h
      rw [edges_getD vals n hlt (i - 1) (by omega)] at hg1
      rw [edges_getD vals n hlt (i - 1 + 1) (by rw [hlen] at hlt2; omega)] at hg2
      rw [show i - 1 + 1 = i from by omega] at hg2
      exact ⟨hg1, hg2⟩
    · intro hbr
      have hb := scanBins_of_bracket v (i - 1) (pdCutEdges vals n) hch
        (by rw [hlen]; omega)
        (by rw [edges_getD vals n hlt (i - 1) (by omega)]; exact hbr.1)
        (by rw [edges_getD vals n hlt (i - 1 + 1) (by omega),
              show i - 1 + 1 = i from by omega]; exact hbr.2) 1
      unfold binOf
      rw [hb]
      congr 1
      omega
  have hexist : ∀ v : ℚ, minOf vals ≤ v → v ≤ maxOf vals →
      ∃ i, binOf (pdCutEdges vals n) v = some i ∧ 1 ≤ i ∧ i ≤ n := by
    intro v hv1 hv2
    have h0 : edgeFn (minOf vals) (maxOf vals) n 0 < v := by
      have hr : (0 : ℚ) < (maxOf vals - minOf vals) / 1000 := by
        have := sub_pos.mpr hlt
        positivity
      unfold edgeFn
      rw [if_pos rfl]
      linarith
    have hNv : v ≤ edgeFn (minOf vals) (maxOf vals) n n := by
      rw [edgeFn_last (minOf vals) (maxOf vals) n hn]
      exact hv2
    obtain ⟨k, hk1, hk2, hk3⟩ :=
      exists_bracket (edgeFn (minOf vals) (maxOf vals) n) n hn v h0 hNv
    refine ⟨k + 1, ?_, by omega, by omega⟩
    apply (hiff v (k + 1) (by omega) (by omega)).mpr
    rw [show k + 1 - 1 = k from by omega]
    exact ⟨hk2, hk3⟩
  have hmax : binOf (pdCutEdges vals n) (maxOf vals) = some n := by
    apply (hiff (maxOf vals) n hn (le_refl n)).mpr
    constructor
    · have hmono := edgeFn_strictMono (minOf vals) (maxOf vals) n hn hlt
        (n - 1) n (by omega) (le_refl n)
      rw [edgeFn_last (minOf vals) (maxOf vals) n hn] at hmono
      exact hmono
    · rw [edgeFn_last (minOf vals) (maxOf vals) n hn]
  have hbdy : ∀ i : ℕ, 1 ≤ i → i < n →
      binOf (pdCutEdges vals n) (edgeFn (minOf vals) (maxOf vals) n i) = some i := by
    intro i h1 h2
    apply (hiff _ i h1 (by omega)).mpr
    exact ⟨edgeFn_strictMono (minOf vals) (maxOf vals) n hn hlt (i - 1) i
      (by omega) (by omega), le_refl _⟩
  have hcc : List.Chain' (· < ·) (pdCutCenters (pdCutEdges vals n)) := by
    rw [pdCutEdges_eq vals n hlt,
        centers_map_range n (edgeFn (minOf vals) (maxOf vals) n), List.chain'_map]
    cases n with
    | zero => simp
    | succ m =>
      rw [List.chain'_range_succ]
      intro i hi
      have ha := edgeFn_strictMono (minOf vals) (maxOf vals) (m + 1) hn hlt
        i (i + 1) (by omega) (by omega)
      have hb := edgeFn_strictMono (minOf vals) (maxOf vals) (m + 1) hn hlt
        (i + 1) (i + 1 + 1) (by omega) (by omega)
      have hsum : edgeFn (minOf vals) (maxOf vals) (m + 1) i +
          edgeFn (minOf vals) (maxOf vals) (m + 1) (i + 1) <
          edgeFn (minOf vals) (maxOf vals) (m + 1) (i + 1) +
          edgeFn (minOf vals) (maxOf vals) (m + 1) (i + 1 + 1) := by linarith
      linarith
  exact ⟨pdCutEdges_eq vals n hlt, hexist, hiff, hmax, hbdy, hcc⟩

/-- Witness for the amended C4 at values `[0, 1]` with 2 bins. -/
theorem C4_amended_binning_witness :
    minOf [(0 : ℚ), 1] < maxOf [(0 : ℚ), 1] ∧
    binOf (pdCutEdges [(0 : ℚ), 1] 2) (maxOf [(0 : ℚ), 1]) = some 2 := by
  have hlt : minOf [(0 : ℚ), 1] < maxOf [(0 : ℚ), 1] := by
    norm_num [minOf, maxOf, min_def, max_def]
  exact ⟨hlt, (C4_amended_binning [0, 1] 2 (by omega) hlt).2.2.2.1⟩

/-- Claim C5 as stated is false: with resolution values `[0, 1/10, 1]`
and 3 bins, bin 2 (range `(1/3, 2/3]`) holds no reflection, yet the
fit input still consists of all 3 (center, scale) pairs — the pair
`(1/2, 1/2)` with the empty bin's center is passed to the fitter, not
excluded. -/
theorem C5_counterexample :
    (∀ v ∈ ([0, 1 / 10, 1] : List ℚ),
      binOf (pdCutEdges [0, 1 / 10, 1] 3) v ≠ some 2) ∧
    (pdCutCenters (pdCutEdges [0, 1 / 10, 1] 3)).length = 3 ∧
    (fitInput (pdCutCenters (pdCutEdges [0, 1 / 10, 1] 3)) [1, 1 / 2, 1 / 4]).length = 3 ∧
    ((1 : ℚ) / 2, (1 : ℚ) / 2) ∈
      fitInput (pdCutCenters (pdCutEdges [0, 1 / 10, 1] 3)) [1, 1 / 2, 1 / 4] := by
  have hmn : minOf [(0 : ℚ), 1 / 10, 1] = 0 := by norm_num [minOf, min_def]
  have hmx : maxOf [(0 : ℚ), 1 / 10, 1] = 1 := by norm_num [maxOf, max_def]
  have hlt : minOf [(0 : ℚ), 1 / 10, 1] < maxOf [(0 : ℚ), 1 / 10, 1] := by
    rw [hmn, hmx]; norm_num
  have he : pdCutEdges [(0 : ℚ), 1 / 10, 1] 3 = [-(1 / 1000), 1 / 3, 2 / 3, 1] := by
    rw [pdCutEdges_eq _ 3 hlt, hmn, hmx]
    rw [show List.range 4 = [0, 1, 2, 3] from by decide]
    simp [edgeFn]
  have hc : pdCutCenters [-(1 / 1000 : ℚ), 1 / 3, 2 / 3, 1]
      = [997 / 6000, 1 / 2, 5 / 6] := by
    simp [pdCutCenters]
    norm_num
  have hfit : fitInput [997 / 6000, 1 / 2, 5 / 6] [(1 : ℚ), 1 / 2, 1 / 4]
      = [(997 / 6000, 1), (1 / 2, 1 / 2), (5 / 6, 1 / 4)] := by
    simp [fitInput]
  refine ⟨?_, ?_, ?_, ?_⟩
  · intro v hv
    rw [he]
    simp only [List.mem_cons, List.not_mem_nil, or_false] at hv
    rcases hv with rfl | rfl | rfl <;> norm_num [binOf, scanBins]
  · rw [he, hc]
    rfl
  · rw [he, hc, hfit]
    rfl
  · rw [he, hc, hfit]
    simp

/-- Claim C5 amended: when the reflections occupy fewer than N
distinct bins, binning and fitting still proceed without error, but
empty bins are not excluded: the fit input always consists of all N
(center, value) pairs, the i-th bin center (midpoint of its edges,
never replaced by zero) paired with the i-th normalized scale value. -/
theorem C5_amended_fit_input (stls sfacs : List ℚ) (n : ℕ) (_hn : 1 ≤ n)
    (hlt : minOf stls < maxOf stls) (hlen : sfacs.length = n) :
    (fitInput (pdCutCenters (pdCutEdges stls n)) sfacs).length = n ∧
    ∀ i : ℕ, i < n →
      (fitInput (pdCutCenters (pdCutEdges stls n)) sfacs).getD i (0, 0)
        = ((edgeFn (minOf stls) (maxOf stls) n i
            + edgeFn (minOf stls) (maxOf stls) n (i + 1)) / 2,
           sfacs.getD i 0) := by
  have hcen : pdCutCenters (pdCutEdges stls n) = (List.range n).map (fun i =>
      (edgeFn (minOf stls) (maxOf stls) n i
        + edgeFn (minOf stls) (maxOf stls) n (i + 1)) / 2) := by
    rw [pdCutEdges_eq stls n hlt, centers_map_range]
  have hclen : (pdCutCenters (pdCutEdges stls n)).length = n := by
    rw [hcen]; simp
  constructor
  · unfold fitInput
    rw [List.length_zip, hclen, hlen]
    exact Nat.min_self n
  · intro i hi
    unfold fitInput
    rw [zip_getD _ _ i (by rw [hclen]; exact hi) (by rw [hlen]; exact hi)]
    refine Prod.ext ?_ rfl
    rw [hcen]
    exact getD_map_range _ n i hi

/-- Witness for the amended C5 at a concrete occupancy-deficient
input. -/
theorem C5_amended_fit_input_witness :
    minOf [(0 : ℚ), 1 / 10, 1] < maxOf [(0 : ℚ), 1 / 10, 1] ∧
    (fitInput (pdCutCenters (pdCutEdges [(0 : ℚ), 1 / 10, 1] 3)) [1, 1 / 2, 1 / 4]).length
      = 3 := by
  have hlt : minOf [(0 : ℚ), 1 / 10, 1] < maxOf [(0 : ℚ), 1 / 10, 1] := by
    norm_num [minOf, maxOf, min_def, max_def]
  exact ⟨hlt,
    (C5_amended_fit_input [0, 1 / 10, 1] [1, 1 / 2, 1 / 4] 3 (by omega) hlt (by simp)).1⟩

theorem fadd_none_right (x : F) : fadd x none = none := by cases x <;> rfl

theorem fmul_none_right (x : F) : fmul x none = none := by cases x <;> rfl

theorem fdiv_none_right (x : F) : fdiv x none = none := by cases x <;> rfl

theorem fdiv_none_left (y : F) : fdiv none y = none := by cases y <;> rfl

theorem mulVec_comp (c0 c1 c2 : F) (h k l : ℤ) :
    fadd (fadd (fmul c0 (some (h : ℚ))) (fmul c1 (some (k : ℚ))))
        (fmul c2 (some (l : ℚ)))
      = fadd (fmul (some (h : ℚ)) c0)
          (fadd (fmul (some (k : ℚ)) c1) (fmul (some (l : ℚ)) c2)) := by
  cases c0 <;> cases c1 <;> cases c2 <;> simp [fadd, fmul, mul_comm, add_assoc]

/-- Claim C6 amended: for every oracle and shape-correct cell, the
metric returned by `matrix_from_cell` has as columns the reciprocal
basis vectors `a* = (b×c)/((b×c)·a)` (and cyclic), each component
rounded to six decimals and rescaled by `1e-10`; applying the metric
to an integer triple `(h,k,l)` yields the integer combination
`h·c₀ + k·c₁ + l·c₂` of those rounded columns (the exact
reciprocal-space vector only up to that rounding), and the resolution
measure used for binning is exactly the Euclidean norm of that vector
divided by two. -/
theorem C6_amended_metric (t : Trig) (cell : List ℚ) (M : Mat3) (h k l : ℤ)
    (hM : matrix_from_cell t cell = .ok M) :
    (∃ av bv cv, cart_from_cell t cell = .ok (av, bv, cv) ∧
      M = ⟨roundScale (starVec bv cv av), roundScale (starVec cv av bv),
           roundScale (starVec av bv cv)⟩) ∧
    mulVec M h k l = vadd (smulF (some (h : ℚ)) M.c0)
      (vadd (smulF (some (k : ℚ)) M.c1) (smulF (some (l : ℚ)) M.c2)) ∧
    stl t M h k l = fdiv (vnorm t (mulVec M h k l)) (some 2) := by
  refine ⟨?_, ?_, rfl⟩
  · unfold matrix_from_cell at hM
    split at hM
    · exact absurd hM (by simp)
    · rename_i av bv cv heq
      exact ⟨av, bv, cv, heq, (Except.ok.inj hM).symm⟩
  · obtain ⟨⟨c0x, c0y, c0z⟩, ⟨c1x, c1y, c1z⟩, ⟨c2x, c2y, c2z⟩⟩ := M
    simp only [mulVec, vadd, smulF, V3.mk.injEq]
    exact ⟨mulVec_comp c0x c1x c2x h k l, mulVec_comp c0y c1y c2y h k l,
           mulVec_comp c0z c1z c2z h k l⟩

/-- Claim C7 amended: the geometry construction validates only the
argument shape (six parameters); for any six-parameter cell it
returns successfully, and whenever the third-axis radicand
`1 - x² - y²` is negative the returned third axis has a NaN
component (the NaN of `np.sqrt` on a negative argument) — no
input-validation error is raised. -/
theorem C7_amended_no_validation (t : Trig) (cell : List ℚ) (h6 : cell.length = 6) :
    (∃ trip, cart_from_cell t cell = .ok trip) ∧
    (fneg (thirdAxisRad t cell) = true →
      ∀ av bv cv, cart_from_cell t cell = .ok (av, bv, cv) → cv.z = none) := by
  constructor
  · unfold cart_from_cell
    rw [if_neg (by omega)]
    exact ⟨_, rfl⟩
  · intro hneg av bv cv hok
    have hz : fsqrt t (thirdAxisRad t cell) = none := by
      cases hrad : thirdAxisRad t cell with
      | none => rfl
      | some r =>
        rw [hrad] at hneg
        simp only [fneg, decide_eq_true_eq] at hneg
        simp [fsqrt, hneg]
    unfold cart_from_cell at hok
    rw [if_neg (by omega)] at hok
    have hinj := Except.ok.inj hok
    have hC := congrArg (fun p : V3 × V3 × V3 => p.2.2) hinj
    simp only at hC
    rw [← hC, hz]
    simp [smulF, sdiv, vnorm, dot, fmul_none_right, fadd_none_right, fsqrt,
      fdiv_none_left, fdiv_none_right]

/-- Witness for the amended C7: the degenerate cell with angles
60, 60, 170 degrees passes the shape check and construction
completes. -/
theorem C7_amended_no_validation_witness :
    cell170.length = 6 ∧ (∃ trip, cart_from_cell trig170 cell170 = .ok trip) :=
  ⟨by decide, (C7_amended_no_validation trig170 cell170 (by decide)).1⟩

theorem cart90_eval : cart_from_cell trig90 cell90
    = .ok (⟨some (3 / 10 ^ 10), some 0, some 0⟩,
           ⟨some 0, some (1 / 10 ^ 10), some 0⟩,
           ⟨some 0, some 0, some (1 / 10 ^ 10)⟩) := by
  unfold cart_from_cell
  rw [if_neg (by norm_num [cell90])]
  simp only [cell90, trig90, ang, ytermAux, thirdAxisRad]
  norm_num [List.getD, fsub, fmul, fdiv, fadd, fsqrt, smulF, sdiv, vnorm, dot]

theorem rndHE_third : rndHE ((10000000000000000 : ℚ) / 3) = 3333333333333333 := by
  unfold rndHE
  rw [if_neg (by norm_num)]
  norm_num

theorem rndHE_tenQuadrillion : rndHE ((10000000000000000 : ℚ)) = 10 ^ 16 := by
  unfold rndHE
  rw [if_neg (by norm_num)]
  norm_num

theorem rndHE_zero : rndHE (0 : ℚ) = 0 := by
  unfold rndHE
  rw [if_neg (by norm_num)]
  norm_num

theorem matrix90_eval : matrix_from_cell trig90 cell90 = .ok M90 := by
  have hstar0 : starVec ⟨some 0, some (1 / 10 ^ 10), some 0⟩
      ⟨some 0, some 0, some (1 / 10 ^ 10)⟩ ⟨some (3 / 10 ^ 10), some 0, some 0⟩
      = ⟨some ((10 : ℚ) ^ 10 / 3), some 0, some 0⟩ := by
    simp only [starVec, cross, dot, sdiv]
    norm_num [fsub, fmul, fadd, fdiv]
  have hstar1 : starVec ⟨some 0, some 0, some (1 / 10 ^ 10)⟩
      ⟨some (3 / 10 ^ 10), some 0, some 0⟩ ⟨some 0, some (1 / 10 ^ 10), some 0⟩
      = ⟨some 0, some ((10 : ℚ) ^ 10), some 0⟩ := by
    simp only [starVec, cross, dot, sdiv]
    norm_num [fsub, fmul, fadd, fdiv]
  have hstar2 : starVec ⟨some (3 / 10 ^ 10), some 0, some 0⟩
      ⟨some 0, some (1 / 10 ^ 10), some 0⟩ ⟨some 0, some 0, some (1 / 10 ^ 10)⟩
      = ⟨some 0, some 0, some ((10 : ℚ) ^ 10)⟩ := by
    simp only [starVec, cross, dot, sdiv]
    norm_num [fsub, fmul, fadd, fdiv]
  have hround0 : roundScale ⟨some ((10 : ℚ) ^ 10 / 3), some 0, some 0⟩
      = ⟨some (3333333333333333 / 10 ^ 16), some 0, some 0⟩ := by
    simp only [roundScale, round6, Option.map_some]
    norm_num [fmul, ang, rndHE_third, rndHE_zero]
  have hround1 : roundScale ⟨some 0, some ((10 : ℚ) ^ 10), some 0⟩
      = ⟨some 0, some 1, some 0⟩ := by
    simp only [roundScale, round6, Option.map_some]
    norm_num [fmul, ang, rndHE_tenQuadrillion, rndHE_zero]
  have hround2 : roundScale ⟨some 0, some 0, some ((10 : ℚ) ^ 10)⟩
      = ⟨some 0, some 0, some 1⟩ := by
    simp only [roundScale, round6, Option.map_some]
    norm_num [fmul, ang, rndHE_tenQuadrillion, rndHE_zero]
  unfold matrix_from_cell
  rw [cart90_eval]
  rw [show (Except.ok (⟨some (3 / 10 ^ 10), some 0, some 0⟩,
        ⟨some 0, some (1 / 10 ^ 10), some 0⟩,
        ⟨some 0, some 0, some (1 / 10 ^ 10)⟩) :
      Except String (V3 × V3 × V3)) = .ok (⟨some (3 / 10 ^ 10), some 0, some 0⟩,
        ⟨some 0, some (1 / 10 ^ 10), some 0⟩,
        ⟨some 0, some 0, some (1 / 10 ^ 10)⟩) from rfl]
  simp only [hstar0, hstar1, hstar2, hround0, hround1, hround2, M90]

theorem mulVec90_eval :
    mulVec M90 1 0 0 = ⟨some (3333333333333333 / 10 ^ 16), some 0, some 0⟩ := by
  simp only [mulVec, M90]
  norm_num [fadd, fmul]

theorem recip90_eval : recipVector trig90 cell90 1 0 0
    = .ok ⟨some (1 / 3), some 0, some 0⟩ := by
  unfold recipVector
  rw [cart90_eval]
  simp only [starVec, cross, dot, sdiv, smulF, vadd, ang]
  norm_num [fsub, fmul, fadd, fdiv]

/-- Claim C6 as stated is false: for the orthorhombic cell with
lengths 3, 1, 1 Ångström and all angles 90 degrees (where the trig
oracle values 0, 1 are exact), the metric applied to `(1, 0, 0)`
gives `0.3333333333333333` — the reciprocal basis component `1e10/3`
rounded at the sixth decimal — which is not the reciprocal-space
vector component `1/3`. -/
theorem C6_counterexample :
    matrix_from_cell trig90 cell90 = .ok M90 ∧
    mulVec M90 1 0 0 = ⟨some (3333333333333333 / 10 ^ 16), some 0, some 0⟩ ∧
    recipVector trig90 cell90 1 0 0 = .ok ⟨some (1 / 3), some 0, some 0⟩ ∧
    (3333333333333333 / 10 ^ 16 : ℚ) ≠ 1 / 3 :=
  ⟨matrix90_eval, mulVec90_eval, recip90_eval, by norm_num⟩

/-- Witness for the amended C6 at the concrete 90-degree cell. -/
theorem C6_amended_metric_witness :
    matrix_from_cell trig90 cell90 = .ok M90 ∧
    stl trig90 M90 1 0 0 = fdiv (vnorm trig90 (mulVec M90 1 0 0)) (some 2) :=
  ⟨matrix90_eval,
   (C6_amended_metric trig90 cell90 M90 1 0 0 matrix90_eval).2.2⟩

theorem cart170_eval : cart_from_cell trig170 cell170
    = .ok (⟨some (1 / 10 ^ 10), some 0, some 0⟩,
           ⟨some (-(1231 / 12500000000000)), some (217 / 12500000000000), some 0⟩,
           ⟨none, none, none⟩) := by
  unfold cart_from_cell
  rw [if_neg (by norm_num [cell170])]
  simp only [cell170, trig170, ang, ytermAux, thirdAxisRad]
  norm_num [List.getD, fsub, fmul, fdiv, fadd, fsqrt, smulF, sdiv, vnorm, dot]

theorem matrix170_eval :
    (matrix_from_cell trig170 cell170).toOption.map (fun M => M.c0.x) = some none := by
  unfold matrix_from_cell
  rw [cart170_eval]
  simp [starVec, cross, dot, sdiv, roundScale, round6, fsub, fmul, fadd, fdiv,
    fmul_none_right, fadd_none_right, fdiv_none_left, fdiv_none_right]
  exact ⟨_, rfl, rfl⟩

/-- Claim C7 as stated is false: the degenerate cell
`(1, 1, 1, 60°, 60°, 170°)` (with the trig oracle holding
four-decimal rational approximations of the true cosines and sines,
accurate enough to fix the sign of the radicand) passes the only
validation in the code — the shape check — and construction completes
with NaN in every third-axis component and in the metric, instead of
raising an input-validation error. -/
theorem C7_counterexample :
    cell170.length = 6 ∧
    fneg (thirdAxisRad trig170 cell170) = true ∧
    cart_from_cell trig170 cell170
      = .ok (⟨some (1 / 10 ^ 10), some 0, some 0⟩,
             ⟨some (-(1231 / 12500000000000)), some (217 / 12500000000000), some 0⟩,
             ⟨none, none, none⟩) ∧
    (matrix_from_cell trig170 cell170).toOption.map (fun M => M.c0.x) = some none := by
  refine ⟨by decide, ?_, cart170_eval, matrix170_eval⟩
  simp only [cell170, trig170, fneg, thirdAxisRad, ytermAux]
  norm_num [List.getD, fsub, fmul, fdiv, fadd]

end XDTDS
